import Mathlib

/-!
Verification of the NX ("PKG4") binary container reader: a shallow embedding
of the crate's byte-range accessor, header decoder, string and bitmap
resolvers, node-record decoder and tree navigator (binary-search `get`,
child iteration, bitmap extraction), together with theorems checking the
specification's claims against this embedding.

The byte range backing a memory-mapped file is modelled as a `List Nat`
(each element one byte); machine-integer reads are modelled on `Nat`
(values are bounded by construction of the reads, and no arithmetic in the
modelled paths can exceed 64 bits on inputs where the reads succeed).
Fallible operations mirror the crate's `Result` with `Except NxError`,
and `Option` where the source returns `Option`.
-/

set_option maxRecDepth 4000

deriving instance DecidableEq for Except

/-- Error type mirroring the crate's `NxError` (payload-free variants keep
the fields the claims inspect: the out-of-bounds indices). -/
inductive NxError where
  | ioError : NxError
  | invalidHeader : NxError
  | outOfBoundsIndex : Nat → NxError
  | outOfBoundsRange : Nat → Nat → NxError
  | invalidCast : NxError
  | invalidString : NxError
deriving DecidableEq

/-- Node type tag, from `NxNodeType` in `node.rs`. -/
inductive NxNodeType where
  | empty : NxNodeType
  | integer : NxNodeType
  | float : NxNodeType
  | string : NxNodeType
  | vector : NxNodeType
  | bitmap : NxNodeType
  | audio : NxNodeType
  | invalid : Nat → NxNodeType
deriving DecidableEq

/-- `impl From<u16> for NxNodeType` in `node.rs`. -/
def nodeTypeOfTag (v : Nat) : NxNodeType :=
  if v = 0 then .empty
  else if v = 1 then .integer
  else if v = 2 then .float
  else if v = 3 then .string
  else if v = 4 then .vector
  else if v = 5 then .bitmap
  else if v = 6 then .audio
  else .invalid v

/-- Decoded node record, from `NxNodeData` in `node.rs`.  The `index` field
is the absolute byte offset the record was decoded from.  Modelled from the
spec: section 9 ("each decoded node record carries the absolute byte offset
it was read from"); the field is declared and used in `node.rs` but the
assignment inside `try_get_node_data` is absent from the sources given. -/
structure NxNodeData where
  index : Nat
  name : Nat
  children : Nat
  count : Nat
  data_type : NxNodeType
  data : Nat
deriving DecidableEq

/-- Header fields, from `NxHeader` in `file.rs`. -/
structure NxHeader where
  node_count : Nat
  node_offset : Nat
  string_count : Nat
  string_offset : Nat
  bitmap_count : Nat
  bitmap_offset : Nat
  audio_count : Nat
  audio_offset : Nat
deriving DecidableEq

/-- A memory-mapped NX file: the byte range, the decoded header and the
root record, from `NxFile` in `file.rs`. -/
structure NxFile where
  data : List Nat
  header : NxHeader
  root : NxNodeData
deriving DecidableEq

/-- Decoded bitmap value.  Modelled from the spec: the `NxBitmap` struct is
referenced by `node.rs` (`NxBitmap { width, height, data }`) but its
declaration is absent from the sources given; sections 4.4 and 6 describe
its content (width, height, decompressed pixel bytes). -/
structure NxBitmap where
  width : Nat
  height : Nat
  data : List Nat
deriving DecidableEq

/-- Rust's `slice::get(a..b)`: `Some` of the sub-slice exactly when
`a ≤ b` and `b ≤ len`, otherwise `None`. -/
def sliceGet (d : List Nat) (a b : Nat) : Option (List Nat) :=
  if a ≤ b ∧ b ≤ d.length then some ((d.drop a).take (b - a)) else none

/-- Little-endian value of a byte list. -/
def leVal : List Nat → Nat
  | [] => 0
  | b :: bs => b + 256 * leVal bs

/-- Is `b` a UTF-8 continuation byte (`0x80..=0xBF`)? -/
def isUtf8Cont (b : Nat) : Bool := 128 ≤ b && b ≤ 191

/-- UTF-8 validity of a byte list, per RFC 3629 — the predicate
`str::from_utf8` decides. -/
def utf8Valid : List Nat → Bool
  | [] => true
  | b :: rest =>
    if b ≤ 127 then utf8Valid rest
    else if 194 ≤ b && b ≤ 223 then
      match rest with
      | c1 :: rest2 => isUtf8Cont c1 && utf8Valid rest2
      | [] => false
    else if b = 224 then
      match rest with
      | c1 :: c2 :: rest2 => (160 ≤ c1 && c1 ≤ 191) && isUtf8Cont c2 && utf8Valid rest2
      | _ => false
    else if 225 ≤ b && b ≤ 236 then
      match rest with
      | c1 :: c2 :: rest2 => isUtf8Cont c1 && isUtf8Cont c2 && utf8Valid rest2
      | _ => false
    else if b = 237 then
      match rest with
      | c1 :: c2 :: rest2 => (128 ≤ c1 && c1 ≤ 159) && isUtf8Cont c2 && utf8Valid rest2
      | _ => false
    else if 238 ≤ b && b ≤ 239 then
      match rest with
      | c1 :: c2 :: rest2 => isUtf8Cont c1 && isUtf8Cont c2 && utf8Valid rest2
      | _ => false
    else if b = 240 then
      match rest with
      | c1 :: c2 :: c3 :: rest2 =>
        (144 ≤ c1 && c1 ≤ 191) && isUtf8Cont c2 && isUtf8Cont c3 && utf8Valid rest2
      | _ => false
    else if 241 ≤ b && b ≤ 243 then
      match rest with
      | c1 :: c2 :: c3 :: rest2 =>
        isUtf8Cont c1 && isUtf8Cont c2 && isUtf8Cont c3 && utf8Valid rest2
      | _ => false
    else if b = 244 then
      match rest with
      | c1 :: c2 :: c3 :: rest2 =>
        (128 ≤ c1 && c1 ≤ 143) && isUtf8Cont c2 && isUtf8Cont c3 && utf8Valid rest2
      | _ => false
    else false

/-- `try_get_u16` from `lib.rs`: slice `index..index+2`, then
`u16::from_le_bytes(bytes.try_into()?)` (the cast fails on a length
mismatch, mirrored by the length test). -/
def tryGetU16 (d : List Nat) (i : Nat) : Except NxError Nat :=
  match sliceGet d i (i + 2) with
  | none => .error (.outOfBoundsRange i (i + 2))
  | some bs => if bs.length = 2 then .ok (leVal bs) else .error .invalidCast

/-- `try_get_u32` from `lib.rs`. -/
def tryGetU32 (d : List Nat) (i : Nat) : Except NxError Nat :=
  match sliceGet d i (i + 4) with
  | none => .error (.outOfBoundsRange i (i + 4))
  | some bs => if bs.length = 4 then .ok (leVal bs) else .error .invalidCast

/-- `try_get_u64` from `lib.rs`. -/
def tryGetU64 (d : List Nat) (i : Nat) : Except NxError Nat :=
  match sliceGet d i (i + 8) with
  | none => .error (.outOfBoundsRange i (i + 8))
  | some bs => if bs.length = 8 then .ok (leVal bs) else .error .invalidCast

/-- `try_get_str` from `lib.rs`: slice `index..index+len`, then
`str::from_utf8`.  The resulting string is kept as its byte list (Rust
`str` comparison and length are byte-wise). -/
def tryGetStr (d : List Nat) (i len : Nat) : Except NxError (List Nat) :=
  match sliceGet d i (i + len) with
  | none => .error (.outOfBoundsRange i (i + len))
  | some bs => if utf8Valid bs then .ok bs else .error .invalidString

/-- Modelled from the spec: `try_get_bytes` is listed by the Byte-Range
Accessor contract (section 4.1, "given (offset, length), returns the
requested bytes or fails with an out-of-bounds error") and called by
`file.rs`, but its implementation is absent from the sources given. -/
def tryGetBytes (d : List Nat) (i len : Nat) : Except NxError (List Nat) :=
  match sliceGet d i (i + len) with
  | none => .error (.outOfBoundsRange i (i + len))
  | some bs => .ok bs

/-- `try_get_node_data` from `lib.rs`: `self.get(usize_index..)` (in range
exactly when `index ≤ len`), then the five field reads at relative offsets
0, 4, 8, 10, 12 on the tail slice, in source order. -/
def tryGetNodeData (d : List Nat) (index : Nat) : Except NxError NxNodeData :=
  if index ≤ d.length then
    match tryGetU32 (d.drop index) 0 with
    | .error e => .error e
    | .ok name =>
      match tryGetU32 (d.drop index) 4 with
      | .error e => .error e
      | .ok children =>
        match tryGetU16 (d.drop index) 8 with
        | .error e => .error e
        | .ok count =>
          match tryGetU16 (d.drop index) 10 with
          | .error e => .error e
          | .ok tag =>
            match tryGetU64 (d.drop index) 12 with
            | .error e => .error e
            | .ok dataWord =>
              .ok ⟨index, name, children, count, nodeTypeOfTag tag, dataWord⟩
  else .error (.outOfBoundsIndex index)

/-- `NxHeader::new` from `file.rs`: the magic read propagates its own error
(bare `?`), a magic mismatch is `InvalidHeader`, and each of the eight
following field reads maps its error to `InvalidHeader`. -/
def NxHeader.new (d : List Nat) : Except NxError NxHeader :=
  match tryGetU32 d 0 with
  | .error e => .error e
  | .ok magic =>
    if magic ≠ 0x34474B50 then .error .invalidHeader
    else
      match tryGetU32 d 4, tryGetU64 d 8, tryGetU32 d 16, tryGetU64 d 20 with
      | .ok node_count, .ok node_offset, .ok string_count, .ok string_offset =>
        match tryGetU32 d 28, tryGetU64 d 32, tryGetU32 d 40, tryGetU64 d 44 with
        | .ok bitmap_count, .ok bitmap_offset, .ok audio_count, .ok audio_offset =>
          .ok ⟨node_count, node_offset, string_count, string_offset,
               bitmap_count, bitmap_offset, audio_count, audio_offset⟩
        | _, _, _, _ => .error .invalidHeader
      | _, _, _, _ => .error .invalidHeader

/-- `NxFile::get_str` from `file.rs`: table entry at
`string_offset + index*8`, u16 length at that offset, then the bytes after
the length prefix. -/
def NxFile.get_str (f : NxFile) (index : Nat) : Except NxError (List Nat) :=
  match tryGetU64 f.data (f.header.string_offset + index * 8) with
  | .error e => .error e
  | .ok off =>
    match tryGetU16 f.data off with
    | .error e => .error e
    | .ok len => tryGetStr f.data (off + 2) len

/-- `NxFile::get_bitmap` from `file.rs`: table entry at
`bitmap_offset + index*8`, u32 length at that offset, then the compressed
bytes after the length prefix. -/
def NxFile.get_bitmap (f : NxFile) (index : Nat) : Except NxError (List Nat) :=
  match tryGetU64 f.data (f.header.bitmap_offset + index * 8) with
  | .error e => .error e
  | .ok off =>
    match tryGetU32 f.data off with
    | .error e => .error e
    | .ok len => tryGetBytes f.data (off + 4) len

/-- One comparison step of Rust's `str::cmp`, which is byte-wise
lexicographic on the UTF-8 bytes. -/
def cmpBytes : List Nat → List Nat → Ordering
  | [], [] => .eq
  | [], _ :: _ => .lt
  | _ :: _, [] => .gt
  | x :: xs, y :: ys =>
    if x < y then .lt else if y < x then .gt else cmpBytes xs ys

/-- The `while count > 0` loop of `NxNode::get` in `node.rs`: probe the
record at `index + (count/2)*20`, resolve its name, compare with the
target; on `Less` continue at `current.index + 20` with
`count - (count/2 + 1)`, on `Equal` return the probed record, on `Greater`
continue with `count/2`; any decode failure returns `None`. -/
def getLoop (f : NxFile) (target : List Nat) (index count : Nat) : Option NxNodeData :=
  if _h : count = 0 then none
  else
    match tryGetNodeData f.data (index + count / 2 * 20) with
    | .error _ => none
    | .ok current =>
      match NxFile.get_str f current.name with
      | .error _ => none
      | .ok currentName =>
        match cmpBytes currentName target with
        | .lt => getLoop f target (current.index + 20) (count - (count / 2 + 1))
        | .eq => some current
        | .gt => getLoop f target index (count / 2)
termination_by count
decreasing_by
  · omega
  · omega

/-- `NxNode::get` from `node.rs`: run the search loop over the `count`
sibling records starting at `node_offset + children * 20`. -/
def nxGet (f : NxFile) (n : NxNodeData) (target : List Nat) : Option NxNodeData :=
  getLoop f target (f.header.node_offset + n.children * 20) n.count

/-- Fuel-instrumented copy of the `get` loop: `none` means the loop body
would have to run more than `fuel` times, `some r` that the loop finishes
with result `r` within `fuel` body iterations. -/
def getLoopFuel (f : NxFile) (target : List Nat) : Nat → Nat → Nat → Option (Option NxNodeData)
  | 0, _, count => if count = 0 then some none else none
  | fuel + 1, index, count =>
    if count = 0 then some none
    else
      match tryGetNodeData f.data (index + count / 2 * 20) with
      | .error _ => some none
      | .ok current =>
        match NxFile.get_str f current.name with
        | .error _ => some none
        | .ok currentName =>
          match cmpBytes currentName target with
          | .lt => getLoopFuel f target fuel (current.index + 20) (count - (count / 2 + 1))
          | .eq => some (some current)
          | .gt => getLoopFuel f target fuel index (count / 2)

/-- Iterator state, from `NxNodeIterator` in `node.rs` (the borrowed file
is passed separately). -/
structure NxIterState where
  data : NxNodeData
  count : Nat
deriving DecidableEq

/-- `NxNode::iter` from `node.rs`: decode the first-child record at
`node_offset + children * 20` (propagating its error with `?`) and start
with `count` remaining. -/
def nxIter (f : NxFile) (n : NxNodeData) : Except NxError NxIterState :=
  match tryGetNodeData f.data (f.header.node_offset + n.children * 20) with
  | .error e => .error e
  | .ok d => .ok ⟨d, n.count⟩

/-- `NxNodeIterator::next` from `node.rs`: with remaining count `c + 1`,
pre-decode the record at `data.index + 20`; on failure return `None`
(dropping the current record), otherwise yield the current record and
continue from the pre-decoded one with count `c`. -/
def iterNext (f : NxFile) (s : NxIterState) : Option (NxNodeData × NxIterState) :=
  match s.count with
  | 0 => none
  | c + 1 =>
    match tryGetNodeData f.data (s.data.index + 20) with
    | .error _ => none
    | .ok next => some (s.data, ⟨next, c⟩)

/-- Drive `iterNext` to exhaustion, collecting the yielded records.  Each
step decreases `count` by exactly one and count `0` always yields `none`,
so `s.count` steps of fuel are exact. -/
def iterRunFuel (f : NxFile) : Nat → NxIterState → List NxNodeData
  | 0, _ => []
  | fuel + 1, s =>
    match iterNext f s with
    | none => []
    | some (x, s2) => x :: iterRunFuel f fuel s2

/-- The full sequence an `NxNodeIterator` yields. -/
def iterRun (f : NxFile) (s : NxIterState) : List NxNodeData :=
  iterRunFuel f s.count s

/-- Reference definition for claim C1, following the spec's words: a linear
scan of the sibling records for the target name, `i` the scan position and
the second argument the number of records left to scan. -/
def linearScanFrom (f : NxFile) (target : List Nat) (base : Nat) : Nat → Nat → Option NxNodeData
  | _, 0 => none
  | i, n + 1 =>
    match tryGetNodeData f.data (base + i * 20) with
    | .error _ => none
    | .ok r =>
      match NxFile.get_str f r.name with
      | .error _ => none
      | .ok nm => if nm = target then some r else linearScanFrom f target base (i + 1) n

/-- Linear scan of the `count` records starting at `base`. -/
def linearScan (f : NxFile) (base count : Nat) (target : List Nat) : Option NxNodeData :=
  linearScanFrom f target base 0 count

/-- The eight little-endian bytes of a u64, mirroring `u64::to_le_bytes`. -/
def u64LeBytes (n : Nat) : List Nat :=
  [n % 256, n / 256 % 256, n / 65536 % 256, n / 16777216 % 256,
   n / 4294967296 % 256, n / 1099511627776 % 256,
   n / 281474976710656 % 256, n / 72057594037927936 % 256]

/-- `NxNode::bitmap` from `node.rs`, parameterised by the external LZ4
block decompressor (spec section 6: a collaborator taking compressed bytes
and the expected output size).  The outer `Option` models the `unwrap` on
the decompression result: `none` is the panic on decompression failure. -/
def nxBitmap (dec : List Nat → Nat → Option (List Nat)) (f : NxFile) (n : NxNodeData) :
    Option (Except NxError (Option NxBitmap)) :=
  match n.data_type with
  | .bitmap =>
    let bytes := u64LeBytes n.data
    let bmIndex := leVal (bytes.take 4)
    let width := leVal ((bytes.drop 4).take 2)
    let height := leVal ((bytes.drop 6).take 2)
    match NxFile.get_bitmap f bmIndex with
    | .error e => some (.error e)
    | .ok comp =>
      match dec comp (width * height * 4) with
      | none => none
      | some out => some (.ok (some ⟨width, height, out⟩))
  | _ => some (.ok none)

/-- Is an error one of the out-of-bounds kinds? -/
def isOobError : NxError → Bool
  | .outOfBoundsIndex _ => true
  | .outOfBoundsRange _ _ => true
  | _ => false

/-- Bytes of a u16 value, little-endian (test-data helper). -/
def u16le (n : Nat) : List Nat := [n % 256, n / 256 % 256]

/-- Bytes of a u32 value, little-endian (test-data helper). -/
def u32le (n : Nat) : List Nat :=
  [n % 256, n / 256 % 256, n / 65536 % 256, n / 16777216 % 256]

/-- Bytes of a u64 value, little-endian (test-data helper). -/
def u64le (n : Nat) : List Nat := u32le (n % 4294967296) ++ u32le (n / 4294967296)

/-- A 20-byte node record (test-data helper). -/
def mkRecord (name children count tag dataWord : Nat) : List Nat :=
  u32le name ++ u32le children ++ u16le count ++ u16le tag ++ u64le dataWord

/-- Example file bytes: five records named "a".."e" at offsets 0..80,
string offset table at 120, string payloads at 160. -/
def dataEX : List Nat :=
  mkRecord 0 0 0 0 0 ++ mkRecord 1 0 0 0 0 ++ mkRecord 2 0 0 0 0 ++
  mkRecord 3 0 0 0 0 ++ mkRecord 4 0 0 0 0 ++
  List.replicate 20 0 ++
  u64le 160 ++ u64le 163 ++ u64le 166 ++ u64le 169 ++ u64le 172 ++
  u16le 1 ++ [97] ++ u16le 1 ++ [98] ++ u16le 1 ++ [99] ++
  u16le 1 ++ [100] ++ u16le 1 ++ [101]

/-- Example parent node: five children starting at record slot 0. -/
def nodeEX : NxNodeData := ⟨0, 0, 0, 5, .empty, 0⟩

/-- Example file: node table at 0, string table at 120. -/
def fEX : NxFile := ⟨dataEX, ⟨5, 0, 5, 120, 0, 0, 0, 0⟩, nodeEX⟩

/-- The records of the example file's sibling array. -/
def recsEX : Nat → NxNodeData := fun i => ⟨i * 20, i, 0, 0, .empty, 0⟩

/-- The resolved names of the example file's sibling array. -/
def nmsEX : Nat → List Nat := fun i => [97 + i]

/-- An empty file paired with a header of all-zero offsets. -/
def fEmpty : NxFile := ⟨[], ⟨0, 0, 0, 0, 0, 0, 0, 0⟩, ⟨0, 0, 0, 0, .empty, 0⟩⟩

/-- A node with no children at slot 0 of `fEmpty`. -/
def nodeZero : NxNodeData := ⟨0, 0, 0, 0, .empty, 0⟩

/-- A file whose byte range is exactly one 20-byte node record. -/
def fIter : NxFile := ⟨mkRecord 0 0 0 0 0, ⟨1, 0, 0, 0, 0, 0, 0, 0⟩, ⟨0, 0, 0, 1, .empty, 0⟩⟩

/-- A parent node of `fIter` with a single child at record slot 0. -/
def nodeIter : NxNodeData := ⟨0, 0, 0, 1, .empty, 0⟩

/-- The same single-record file with 20 further bytes after the record, so
that the record one past the child also decodes. -/
def fIter2 : NxFile :=
  ⟨mkRecord 0 0 0 0 0 ++ List.replicate 20 0, ⟨1, 0, 0, 0, 0, 0, 0, 0⟩, ⟨0, 0, 0, 1, .empty, 0⟩⟩

/-- Bitmap example file: bitmap offset table at 0 (one u64 entry pointing
at 8), a u32 length 3 at 8 and three compressed bytes at 12. -/
def fBmp : NxFile := ⟨u64le 8 ++ u32le 3 ++ [1, 2, 3], ⟨0, 0, 0, 0, 1, 0, 0, 0⟩, ⟨0, 0, 0, 0, .empty, 0⟩⟩

/-- A Bitmap-typed node of `fBmp`: data word encodes index 0, width 1,
height 1. -/
def nodeBmp : NxNodeData := ⟨0, 0, 0, 0, .bitmap, 281479271677952⟩

/-- A stand-in decompressor satisfying the spec contract: it returns a
buffer of exactly the requested size. -/
def decZeros : List Nat → Nat → Option (List Nat) := fun _ sz => some (List.replicate sz 0)

/-! Order lemmas for the byte-wise comparison. -/

theorem cmpBytes_eq_iff : ∀ a b : List Nat, cmpBytes a b = Ordering.eq ↔ a = b
  | [], [] => by simp [cmpBytes]
  | [], _ :: _ => by simp [cmpBytes]
  | _ :: _, [] => by simp [cmpBytes]
  | x :: xs, y :: ys => by
    simp only [cmpBytes]
    split_ifs with h1 h2
    · simp only [List.cons.injEq]
      constructor
      · intro hc; cases hc
      · intro hc; omega
    · simp only [List.cons.injEq]
      constructor
      · intro hc; cases hc
      · intro hc; omega
    · have hxy : x = y := by omega
      rw [cmpBytes_eq_iff xs ys]
      simp [hxy]

theorem cmpBytes_self (a : List Nat) : cmpBytes a a = Ordering.eq :=
  (cmpBytes_eq_iff a a).2 rfl

theorem cmpBytes_le_lt_trans : ∀ a b c : List Nat,
    cmpBytes a b ≠ Ordering.gt → cmpBytes b c = Ordering.lt → cmpBytes a c = Ordering.lt
  | [], b, [] => by
    intro _ h2
    cases b <;> simp [cmpBytes] at h2
  | [], _, _ :: _ => by intro _ _; rfl
  | _ :: _, [], _ => by intro h1 _; exact absurd rfl h1
  | x :: xs, y :: ys, [] => by
    intro _ h2
    simp only [cmpBytes] at h2
    exact absurd h2 (by decide)
  | x :: xs, y :: ys, z :: zs => by
    intro h1 h2
    have h1a : x < y ∨ (x = y ∧ cmpBytes xs ys ≠ Ordering.gt) := by
      by_cases hxy : x < y
      · exact Or.inl hxy
      · by_cases hyx : y < x
        · exfalso
          apply h1
          simp only [cmpBytes]
          rw [if_neg hxy, if_pos hyx]
        · refine Or.inr ⟨by omega, ?_⟩
          intro hg
          apply h1
          simp only [cmpBytes]
          rw [if_neg hxy, if_neg hyx]
          exact hg
    have h2a : y < z ∨ (y = z ∧ cmpBytes ys zs = Ordering.lt) := by
      simp only [cmpBytes] at h2
      by_cases hyz : y < z
      · exact Or.inl hyz
      · rw [if_neg hyz] at h2
        by_cases hzy : z < y
        · rw [if_pos hzy] at h2
          cases h2
        · rw [if_neg hzy] at h2
          exact Or.inr ⟨by omega, h2⟩
    simp only [cmpBytes]
    rcases h1a with hlt1 | ⟨heq1, hle1⟩ <;> rcases h2a with hlt2 | ⟨heq2, hlt2⟩
    · rw [if_pos (by omega : x < z)]
    · rw [if_pos (by omega : x < z)]
    · rw [if_pos (by omega : x < z)]
    · rw [if_neg (by omega : ¬x < z), if_neg (by omega : ¬z < x)]
      exact cmpBytes_le_lt_trans xs ys zs hle1 hlt2

/-! Basic facts about the raw reads. -/

theorem tryGetNodeData_index {d : List Nat} {i : Nat} {r : NxNodeData}
    (h : tryGetNodeData d i = .ok r) : r.index = i := by
  unfold tryGetNodeData at h
  by_cases hb : i ≤ d.length
  · rw [if_pos hb] at h
    cases h1 : tryGetU32 (d.drop i) 0 with
    | error e => rw [h1] at h; cases h
    | ok nm =>
      rw [h1] at h
      cases h2 : tryGetU32 (d.drop i) 4 with
      | error e => rw [h2] at h; cases h
      | ok ch =>
        rw [h2] at h
        cases h3 : tryGetU16 (d.drop i) 8 with
        | error e => rw [h3] at h; cases h
        | ok ct =>
          rw [h3] at h
          cases h4 : tryGetU16 (d.drop i) 10 with
          | error e => rw [h4] at h; cases h
          | ok tg =>
            rw [h4] at h
            cases h5 : tryGetU64 (d.drop i) 12 with
            | error e => rw [h5] at h; cases h
            | ok dw =>
              rw [h5] at h
              cases h
              rfl
  · rw [if_neg hb] at h
    cases h

/-! The fuel-instrumented loop agrees with the loop whenever the fuel is at
least `count`: the loop body runs at most `count` times. -/

theorem getLoopFuel_complete (f : NxFile) (t : List Nat) :
    ∀ fuel index count, count ≤ fuel →
      getLoopFuel f t fuel index count = some (getLoop f t index count) := by
  intro fuel
  induction fuel with
  | zero =>
    intro index count hc
    have h0 : count = 0 := by omega
    subst h0
    simp [getLoopFuel, getLoop]
  | succ fuel ih =>
    intro index count hc
    by_cases h0 : count = 0
    · subst h0
      simp [getLoopFuel, getLoop]
    · rw [getLoop]
      rw [dif_neg h0]
      simp only [getLoopFuel]
      rw [if_neg h0]
      cases hd : tryGetNodeData f.data (index + count / 2 * 20) with
      | error e => simp
      | ok current =>
        cases hs : NxFile.get_str f current.name with
        | error e => simp [hs]
        | ok currentName =>
          simp only [hs]
          cases hcmp : cmpBytes currentName t with
          | lt =>
            simp only [hcmp]
            exact ih (current.index + 20) (count - (count / 2 + 1)) (by omega)
          | eq => simp [hcmp]
          | gt =>
            simp only [hcmp]
            exact ih index (count / 2) (by omega)

/-- Anything the search loop returns is one of the sibling records, and its
resolved name is the target. -/
theorem getLoopFuel_sound (f : NxFile) (t : List Nat) :
    ∀ (fuel count base : Nat) (recs : Nat → NxNodeData) (nms : Nat → List Nat) (r : NxNodeData),
      (∀ i, i < count → tryGetNodeData f.data (base + i * 20) = .ok (recs i)) →
      (∀ i, i < count → NxFile.get_str f (recs i).name = .ok (nms i)) →
      getLoopFuel f t fuel base count = some (some r) →
      ∃ i, i < count ∧ r = recs i ∧ nms i = t := by
  intro fuel
  induction fuel with
  | zero =>
    intro count base recs nms r _ _ hrun
    simp only [getLoopFuel] at hrun
    split_ifs at hrun
    all_goals simp at hrun
  | succ fuel ih =>
    intro count base recs nms r hrec hnm hrun
    by_cases h0 : count = 0
    · subst h0
      simp [getLoopFuel] at hrun
    · have hmid : count / 2 < count := by omega
      simp only [getLoopFuel] at hrun
      rw [if_neg h0] at hrun
      simp only [hrec (count / 2) hmid] at hrun
      simp only [hnm (count / 2) hmid] at hrun
      cases hcmp : cmpBytes (nms (count / 2)) t with
      | lt =>
        simp only [hcmp] at hrun
        have hidx : (recs (count / 2)).index = base + count / 2 * 20 :=
          tryGetNodeData_index (hrec (count / 2) hmid)
        rw [hidx] at hrun
        obtain ⟨i, hi, hr, hn⟩ :=
          ih (count - (count / 2 + 1)) (base + count / 2 * 20 + 20)
            (fun j => recs (count / 2 + 1 + j)) (fun j => nms (count / 2 + 1 + j)) r
            (fun j hj => by
              have h := hrec (count / 2 + 1 + j) (by omega)
              rwa [show base + (count / 2 + 1 + j) * 20 = base + count / 2 * 20 + 20 + j * 20 by
                ring] at h)
            (fun j hj => hnm (count / 2 + 1 + j) (by omega))
            hrun
        exact ⟨count / 2 + 1 + i, by omega, hr, hn⟩
      | eq =>
        simp only [hcmp] at hrun
        simp only [Option.some.injEq] at hrun
        exact ⟨count / 2, hmid, hrun.symm, (cmpBytes_eq_iff _ _).1 hcmp⟩
      | gt =>
        simp only [hcmp] at hrun
        obtain ⟨i, hi, hr, hn⟩ :=
          ih (count / 2) base recs nms r
            (fun j hj => hrec j (by omega)) (fun j hj => hnm j (by omega)) hrun
        exact ⟨i, by omega, hr, hn⟩

/-- If no sibling's resolved name is the target, the loop reports "not
found" (within `count` iterations). -/
theorem getLoopFuel_notfound (f : NxFile) (t : List Nat) :
    ∀ (fuel count base : Nat) (recs : Nat → NxNodeData) (nms : Nat → List Nat),
      (∀ i, i < count → tryGetNodeData f.data (base + i * 20) = .ok (recs i)) →
      (∀ i, i < count → NxFile.get_str f (recs i).name = .ok (nms i)) →
      (∀ i, i < count → nms i ≠ t) →
      count ≤ fuel →
      getLoopFuel f t fuel base count = some none := by
  intro fuel
  induction fuel with
  | zero =>
    intro count base recs nms _ _ _ hc
    have h0 : count = 0 := by omega
    subst h0
    simp [getLoopFuel]
  | succ fuel ih =>
    intro count base recs nms hrec hnm hmiss hc
    by_cases h0 : count = 0
    · subst h0
      simp [getLoopFuel]
    · have hmid : count / 2 < count := by omega
      simp only [getLoopFuel]
      rw [if_neg h0]
      simp only [hrec (count / 2) hmid]
      simp only [hnm (count / 2) hmid]
      cases hcmp : cmpBytes (nms (count / 2)) t with
      | lt =>
        simp only [hcmp]
        have hidx : (recs (count / 2)).index = base + count / 2 * 20 :=
          tryGetNodeData_index (hrec (count / 2) hmid)
        rw [hidx]
        exact ih (count - (count / 2 + 1)) (base + count / 2 * 20 + 20)
          (fun j => recs (count / 2 + 1 + j)) (fun j => nms (count / 2 + 1 + j))
          (fun j hj => by
            have h := hrec (count / 2 + 1 + j) (by omega)
            rwa [show base + (count / 2 + 1 + j) * 20 = base + count / 2 * 20 + 20 + j * 20 by
              ring] at h)
          (fun j hj => hnm (count / 2 + 1 + j) (by omega))
          (fun j hj => hmiss (count / 2 + 1 + j) (by omega))
          (by omega)
      | eq =>
        exact absurd ((cmpBytes_eq_iff _ _).1 hcmp) (hmiss (count / 2) hmid)
      | gt =>
        simp only [hcmp]
        exact ih (count / 2) base recs nms
          (fun j hj => hrec j (by omega)) (fun j hj => hnm j (by omega))
          (fun j hj => hmiss j (by omega)) (by omega)

/-- On a sorted sibling array that contains the target name, the loop finds
some record (within `count` iterations). -/
theorem getLoopFuel_found (f : NxFile) (t : List Nat) :
    ∀ (fuel count base : Nat) (recs : Nat → NxNodeData) (nms : Nat → List Nat) (i0 : Nat),
      (∀ i, i < count → tryGetNodeData f.data (base + i * 20) = .ok (recs i)) →
      (∀ i, i < count → NxFile.get_str f (recs i).name = .ok (nms i)) →
      (∀ j, j < count → ∀ i, i ≤ j → cmpBytes (nms i) (nms j) ≠ .gt) →
      i0 < count → nms i0 = t →
      count ≤ fuel →
      ∃ r, getLoopFuel f t fuel base count = some (some r) := by
  intro fuel
  induction fuel with
  | zero =>
    intro count base recs nms i0 _ _ _ hi0 _ hc
    omega
  | succ fuel ih =>
    intro count base recs nms i0 hrec hnm hsort hi0 ht0 hc
    have h0 : count ≠ 0 := by omega
    have hmid : count / 2 < count := by omega
    simp only [getLoopFuel]
    rw [if_neg h0]
    simp only [hrec (count / 2) hmid]
    simp only [hnm (count / 2) hmid]
    cases hcmp : cmpBytes (nms (count / 2)) t with
    | lt =>
      simp only [hcmp]
      have hidx : (recs (count / 2)).index = base + count / 2 * 20 :=
        tryGetNodeData_index (hrec (count / 2) hmid)
      rw [hidx]
      have hup : count / 2 < i0 := by
        by_contra hle
        have hle2 : cmpBytes (nms i0) (nms (count / 2)) ≠ .gt :=
          hsort (count / 2) hmid i0 (by omega)
        have hlt : cmpBytes (nms i0) t = .lt := cmpBytes_le_lt_trans _ _ _ hle2 hcmp
        rw [ht0, cmpBytes_self] at hlt
        cases hlt
      exact ih (count - (count / 2 + 1)) (base + count / 2 * 20 + 20)
        (fun j => recs (count / 2 + 1 + j)) (fun j => nms (count / 2 + 1 + j))
        (i0 - (count / 2 + 1))
        (fun j hj => by
          have h := hrec (count / 2 + 1 + j) (by omega)
          rwa [show base + (count / 2 + 1 + j) * 20 = base + count / 2 * 20 + 20 + j * 20 by
            ring] at h)
        (fun j hj => hnm (count / 2 + 1 + j) (by omega))
        (fun j hj i hij => hsort (count / 2 + 1 + j) (by omega) (count / 2 + 1 + i) (by omega))
        (by omega)
        (by
          show nms (count / 2 + 1 + (i0 - (count / 2 + 1))) = t
          rw [show count / 2 + 1 + (i0 - (count / 2 + 1)) = i0 by omega]
          exact ht0)
        (by omega)
    | eq =>
      simp only [hcmp]
      exact ⟨recs (count / 2), rfl⟩
    | gt =>
      simp only [hcmp]
      have hdown : i0 < count / 2 := by
        by_contra hge
        have hle2 : cmpBytes (nms (count / 2)) (nms i0) ≠ .gt :=
          hsort i0 hi0 (count / 2) (by omega)
        rw [ht0] at hle2
        exact hle2 hcmp
      exact ih (count / 2) base recs nms i0
        (fun j hj => hrec j (by omega)) (fun j hj => hnm j (by omega))
        (fun j hj i hij => hsort j (by omega) i hij)
        hdown ht0 (by omega)

/-- Whatever record the loop returns, its resolved name is exactly the
target, on any input whatsoever. -/
theorem getLoopFuel_name (f : NxFile) (t : List Nat) :
    ∀ fuel base count r,
      getLoopFuel f t fuel base count = some (some r) →
      NxFile.get_str f r.name = .ok t := by
  intro fuel
  induction fuel with
  | zero =>
    intro base count r hrun
    simp only [getLoopFuel] at hrun
    split_ifs at hrun
    all_goals simp at hrun
  | succ fuel ih =>
    intro base count r hrun
    simp only [getLoopFuel] at hrun
    split_ifs at hrun with h0
    · simp at hrun
    · cases hd : tryGetNodeData f.data (base + count / 2 * 20) with
      | error e => rw [hd] at hrun; simp at hrun
      | ok current =>
        rw [hd] at hrun
        simp only [] at hrun
        cases hs : NxFile.get_str f current.name with
        | error e => simp only [hs] at hrun; simp at hrun
        | ok currentName =>
          simp only [hs] at hrun
          cases hcmp : cmpBytes currentName t with
          | lt => simp only [hcmp] at hrun; exact ih _ _ _ hrun
          | eq =>
            simp only [hcmp, Option.some.injEq] at hrun
            subst hrun
            rw [(cmpBytes_eq_iff currentName t).1 hcmp] at hs
            exact hs
          | gt => simp only [hcmp] at hrun; exact ih _ _ _ hrun

/-- Evaluation helper: a run of the instrumented loop with `count` fuel
determines the loop's value. -/
theorem getLoop_eval {f : NxFile} {t : List Nat} {index count : Nat} {r : Option NxNodeData}
    (h : getLoopFuel f t count index count = some r) : getLoop f t index count = r := by
  have hb := getLoopFuel_complete f t count index count (le_refl count)
  rw [h] at hb
  exact (Option.some.inj hb).symm

/-- The linear scan reports "not found" exactly when no scanned record's
resolved name is the target. -/
theorem linearScanFrom_none_iff (f : NxFile) (t : List Nat) (base : Nat)
    (recs : Nat → NxNodeData) (nms : Nat → List Nat) :
    ∀ n i,
      (∀ k, k < n → tryGetNodeData f.data (base + (i + k) * 20) = .ok (recs (i + k))) →
      (∀ k, k < n → NxFile.get_str f (recs (i + k)).name = .ok (nms (i + k))) →
      (linearScanFrom f t base i n = none ↔ ∀ k, k < n → nms (i + k) ≠ t) := by
  intro n
  induction n with
  | zero =>
    intro i _ _
    simp [linearScanFrom]
  | succ n ih =>
    intro i hrec hnm
    simp only [linearScanFrom]
    have h0 := hrec 0 (by omega)
    rw [Nat.add_zero] at h0
    have h1 := hnm 0 (by omega)
    rw [Nat.add_zero] at h1
    simp only [h0]
    simp only [h1]
    by_cases he : nms i = t
    · rw [if_pos he]
      constructor
      · intro hcon
        exact absurd hcon (by simp)
      · intro hall
        exact absurd he (by simpa using hall 0 (by omega))
    · rw [if_neg he]
      rw [ih (i + 1)
        (fun k hk => by
          have h := hrec (k + 1) (by omega)
          rwa [show i + (k + 1) = i + 1 + k by omega] at h)
        (fun k hk => by
          have h := hnm (k + 1) (by omega)
          rwa [show i + (k + 1) = i + 1 + k by omega] at h)]
      constructor
      · intro hall k hk
        cases k with
        | zero => simpa using he
        | succ k2 =>
          have h := hall k2 (by omega)
          rwa [show i + 1 + k2 = i + (k2 + 1) by omega] at h
      · intro hall k hk
        have h := hall (k + 1) (by omega)
        rwa [show i + (k + 1) = i + 1 + k by omega] at h

/-- C1: for a node whose sibling array (the `count` records starting at
`node_offset + children * 20`) is contiguous (`recs`, all decoding) with
resolvable names (`nms`) sorted lexicographically (non-decreasing under the
byte-wise comparison), `get` agrees with a linear scan of that array: it
returns `none` exactly when the scan does (in particular when the name is
absent or `count = 0`), and any record it returns is one of the array's
records whose resolved name is the target. -/
theorem get_matches_linear_scan (f : NxFile) (n : NxNodeData) (t : List Nat)
    (recs : Nat → NxNodeData) (nms : Nat → List Nat)
    (hrec : ∀ i, i < n.count →
      tryGetNodeData f.data (f.header.node_offset + n.children * 20 + i * 20) = .ok (recs i))
    (hnm : ∀ i, i < n.count → NxFile.get_str f (recs i).name = .ok (nms i))
    (hsort : ∀ j, j < n.count → ∀ i, i ≤ j → cmpBytes (nms i) (nms j) ≠ .gt) :
    (nxGet f n t = none ↔
      linearScan f (f.header.node_offset + n.children * 20) n.count t = none) ∧
    (∀ r, nxGet f n t = some r → ∃ i, i < n.count ∧ r = recs i ∧ nms i = t) := by
  have hbridge := getLoopFuel_complete f t n.count
    (f.header.node_offset + n.children * 20) n.count (le_refl _)
  have hscan := linearScanFrom_none_iff f t (f.header.node_offset + n.children * 20)
    recs nms n.count 0
    (fun k hk => by simpa using hrec k hk)
    (fun k hk => by simpa using hnm k hk)
  constructor
  · constructor
    · intro hnone
      rw [linearScan, hscan]
      intro k hk hkt
      rw [Nat.zero_add] at hkt
      obtain ⟨r, hr⟩ := getLoopFuel_found f t n.count n.count
        (f.header.node_offset + n.children * 20) recs nms k hrec hnm hsort hk hkt (le_refl _)
      rw [hr] at hbridge
      have hloop : getLoop f t (f.header.node_offset + n.children * 20) n.count = some r :=
        (Option.some.inj hbridge).symm
      have hnone2 : getLoop f t (f.header.node_offset + n.children * 20) n.count = none := hnone
      rw [hnone2] at hloop
      cases hloop
    · intro hsnone
      rw [linearScan, hscan] at hsnone
      have hnf := getLoopFuel_notfound f t n.count n.count
        (f.header.node_offset + n.children * 20) recs nms hrec hnm
        (fun i hi => by simpa using hsnone i hi) (le_refl _)
      rw [hnf] at hbridge
      exact (Option.some.inj hbridge).symm
  · intro r hr
    have hr2 : getLoop f t (f.header.node_offset + n.children * 20) n.count = some r := hr
    rw [hr2] at hbridge
    exact getLoopFuel_sound f t n.count n.count
      (f.header.node_offset + n.children * 20) recs nms r hrec hnm hbridge

/-- Witness for C1 at the example file: searching for the absent name "f"
returns `none` and so does the linear scan. -/
theorem get_matches_linear_scan_witness :
    nxGet fEX nodeEX [102] = none ↔
      linearScan fEX (fEX.header.node_offset + nodeEX.children * 20) nodeEX.count [102] = none :=
  (get_matches_linear_scan fEX nodeEX [102] recsEX nmsEX
    (by decide) (by decide) (by decide)).1

/-- C9: whenever `get` returns a node, resolving that node's name through
the string table succeeds and yields exactly the queried name — on any
input, sorted or not. -/
theorem get_returns_queried_name (f : NxFile) (n : NxNodeData) (t : List Nat) (r : NxNodeData)
    (h : nxGet f n t = some r) : NxFile.get_str f r.name = .ok t := by
  have hbridge := getLoopFuel_complete f t n.count
    (f.header.node_offset + n.children * 20) n.count (le_refl _)
  have h2 : getLoop f t (f.header.node_offset + n.children * 20) n.count = some r := h
  rw [h2] at hbridge
  exact getLoopFuel_name f t n.count _ n.count r hbridge

/-- Witness for C9 at the example file: searching for "c" returns the
record at offset 40, whose name resolves to "c". -/
theorem get_returns_queried_name_witness :
    NxFile.get_str fEX (2 : Nat) = .ok [99] := by
  have h : nxGet fEX nodeEX [99] = some ⟨40, 2, 0, 0, .empty, 0⟩ := getLoop_eval (by decide)
  exact get_returns_queried_name fEX nodeEX [99] _ h

/-- C10: the `get` loop terminates within `count` body iterations: with any
fuel of at least `count` iterations the instrumented loop finishes (does not
run out of fuel) and computes exactly the loop's value.  Each iteration
strictly decreases `count` — to `count - (count/2 + 1)` when moving right
and to `count/2` when moving left. -/
theorem get_terminates_within_count (f : NxFile) (t : List Nat) (index count fuel : Nat)
    (h : count ≤ fuel) :
    getLoopFuel f t fuel index count = some (getLoop f t index count) :=
  getLoopFuel_complete f t fuel index count h

/-- Witness for C10 at the example file with fuel equal to `count`. -/
theorem get_terminates_within_count_witness :
    getLoopFuel fEX [99] 5 0 5 = some (getLoop fEX [99] 0 5) :=
  get_terminates_within_count fEX [99] 0 5 5 (by decide)

/-- C2 (amended): `get` converts any decode failure at a probe — an
unreadable record or an unresolvable name — into `None`; the iterator's
`next` converts a failed decode of the following record into end of
iteration; `iter()` itself, however, propagates the decode error of the
first-child record: it returns an error exactly when that record fails to
decode. -/
theorem get_iter_degrade :
    (∀ (f : NxFile) (t : List Nat) (index count : Nat) (e : NxError),
      count ≠ 0 → tryGetNodeData f.data (index + count / 2 * 20) = .error e →
      getLoop f t index count = none) ∧
    (∀ (f : NxFile) (t : List Nat) (index count : Nat) (r : NxNodeData) (e : NxError),
      count ≠ 0 → tryGetNodeData f.data (index + count / 2 * 20) = .ok r →
      NxFile.get_str f r.name = .error e →
      getLoop f t index count = none) ∧
    (∀ (f : NxFile) (s : NxIterState) (e : NxError),
      s.count ≠ 0 → tryGetNodeData f.data (s.data.index + 20) = .error e →
      iterNext f s = none) ∧
    (∀ (f : NxFile) (n : NxNodeData) (e : NxError),
      nxIter f n = .error e ↔
      tryGetNodeData f.data (f.header.node_offset + n.children * 20) = .error e) := by
  refine ⟨?_, ?_, ?_, ?_⟩
  · intro f t index count e h0 herr
    obtain ⟨c, rfl⟩ : ∃ c, count = c + 1 := ⟨count - 1, by omega⟩
    have hb := getLoopFuel_complete f t (c + 1) index (c + 1) (le_refl _)
    simp only [getLoopFuel] at hb
    rw [if_neg h0] at hb
    simp only [herr] at hb
    exact (Option.some.inj hb).symm
  · intro f t index count r e h0 hok herr
    obtain ⟨c, rfl⟩ : ∃ c, count = c + 1 := ⟨count - 1, by omega⟩
    have hb := getLoopFuel_complete f t (c + 1) index (c + 1) (le_refl _)
    simp only [getLoopFuel] at hb
    rw [if_neg h0] at hb
    simp only [hok] at hb
    simp only [herr] at hb
    exact (Option.some.inj hb).symm
  · intro f s e h0 herr
    obtain ⟨c, hc⟩ : ∃ c, s.count = c + 1 := ⟨s.count - 1, by omega⟩
    simp only [iterNext, hc, herr]
  · intro f n e
    cases hd : tryGetNodeData f.data (f.header.node_offset + n.children * 20) with
    | error e2 => simp [nxIter, hd]
    | ok d => simp [nxIter, hd]

/-- Witness for C2's amended statement: on the empty file, a failed probe
decode makes the loop return `None`. -/
theorem get_iter_degrade_witness : getLoop fEmpty [0] 0 1 = none :=
  get_iter_degrade.1 fEmpty [0] 0 1 (.outOfBoundsRange 0 4) (by decide) (by decide)

/-- Counterexample to C2 as stated: `iter()` does propagate an error value
when the first-child record cannot be decoded (here: empty byte range). -/
theorem iter_error_counterexample :
    nxIter fEmpty nodeZero = .error (.outOfBoundsRange 0 4) := by decide

/-- C6 (amended): each loop iteration probes the record at
`index + (count/2) * 20`; if the probed name is less than the target the
search continues at the probed record's offset plus 20 — an advance of
`(count/2 + 1) * 20`, not `(count/2) * 40` — with `count - (count/2 + 1)`
candidates; if equal, that record is returned immediately; if greater, the
search continues at the same base with `count/2` candidates. -/
theorem get_probe_step (f : NxFile) (t : List Nat) (index count : Nat)
    (r : NxNodeData) (nm : List Nat)
    (h0 : count ≠ 0)
    (hr : tryGetNodeData f.data (index + count / 2 * 20) = .ok r)
    (hnm : NxFile.get_str f r.name = .ok nm) :
    getLoop f t index count =
      match cmpBytes nm t with
      | .lt => getLoop f t (index + count / 2 * 20 + 20) (count - (count / 2 + 1))
      | .eq => some r
      | .gt => getLoop f t index (count / 2) := by
  obtain ⟨c, rfl⟩ : ∃ c, count = c + 1 := ⟨count - 1, by omega⟩
  have hb := getLoopFuel_complete f t (c + 1) index (c + 1) (le_refl _)
  simp only [getLoopFuel] at hb
  rw [if_neg h0] at hb
  simp only [hr] at hb
  simp only [hnm] at hb
  have hidx : r.index = index + (c + 1) / 2 * 20 := tryGetNodeData_index hr
  cases hcmp : cmpBytes nm t with
  | lt =>
    simp only [hcmp] at hb
    rw [hidx] at hb
    rw [getLoopFuel_complete f t c (index + (c + 1) / 2 * 20 + 20)
      ((c + 1) - ((c + 1) / 2 + 1)) (by omega)] at hb
    exact (Option.some.inj hb).symm
  | eq =>
    simp only [hcmp] at hb
    exact (Option.some.inj hb).symm
  | gt =>
    simp only [hcmp] at hb
    rw [getLoopFuel_complete f t c index ((c + 1) / 2) (by omega)] at hb
    exact (Option.some.inj hb).symm

/-- Counterexample to C6 as stated: at `count = 4` the probe (offset 40,
name "c") is less than the target "d"; the loop finds the record at offset
60, while continuing at the claim's `index + mid * 40 = 80` with
`count - (mid + 1) = 1` candidates finds nothing — the advance is
`(mid + 1) * 20`, not `mid * 40`. -/
theorem get_probe_step_counterexample :
    tryGetNodeData fEX.data (0 + 4 / 2 * 20) = .ok ⟨40, 2, 0, 0, .empty, 0⟩ ∧
    NxFile.get_str fEX 2 = .ok [99] ∧
    cmpBytes [99] [100] = .lt ∧
    getLoop fEX [100] 0 4 = some ⟨60, 3, 0, 0, .empty, 0⟩ ∧
    getLoop fEX [100] (0 + 4 / 2 * 40) (4 - (4 / 2 + 1)) = none :=
  ⟨by decide, by decide, by decide, getLoop_eval (by decide), getLoop_eval (by decide)⟩

/-- Witness for C6's amended statement: probing "c" against target "c"
returns the probed record immediately. -/
theorem get_probe_step_witness :
    getLoop fEX [99] 0 5 = some ⟨40, 2, 0, 0, .empty, 0⟩ := by
  have h := get_probe_step fEX [99] 0 5 ⟨40, 2, 0, 0, .empty, 0⟩ [99]
    (by decide) (by decide) (by decide)
  rw [show cmpBytes [99] [99] = Ordering.eq from by decide] at h
  exact h

/-! Shape lemmas for the raw reads. -/

theorem sliceGet_some_k (d : List Nat) (i k : Nat) (h : i + k ≤ d.length) :
    sliceGet d i (i + k) = some ((d.drop i).take k) := by
  unfold sliceGet
  rw [if_pos ⟨by omega, h⟩, show i + k - i = k by omega]

theorem sliceGet_none_k (d : List Nat) (i k : Nat) (h : d.length < i + k) :
    sliceGet d i (i + k) = none := by
  unfold sliceGet
  rw [if_neg]
  intro hc
  obtain ⟨h1, h2⟩ := hc
  omega

theorem take_drop_length (d : List Nat) (i k : Nat) (h : i + k ≤ d.length) :
    ((d.drop i).take k).length = k := by
  simp only [List.length_take, List.length_drop]
  omega

theorem tryGetU16_ok (d : List Nat) (i : Nat) (h : i + 2 ≤ d.length) :
    tryGetU16 d i = .ok (leVal ((d.drop i).take 2)) := by
  unfold tryGetU16
  simp only [sliceGet_some_k d i 2 h]
  rw [if_pos (take_drop_length d i 2 h)]

theorem tryGetU16_oob (d : List Nat) (i : Nat) (h : d.length < i + 2) :
    tryGetU16 d i = .error (.outOfBoundsRange i (i + 2)) := by
  unfold tryGetU16
  simp only [sliceGet_none_k d i 2 h]

theorem tryGetU32_ok (d : List Nat) (i : Nat) (h : i + 4 ≤ d.length) :
    tryGetU32 d i = .ok (leVal ((d.drop i).take 4)) := by
  unfold tryGetU32
  simp only [sliceGet_some_k d i 4 h]
  rw [if_pos (take_drop_length d i 4 h)]

theorem tryGetU32_oob (d : List Nat) (i : Nat) (h : d.length < i + 4) :
    tryGetU32 d i = .error (.outOfBoundsRange i (i + 4)) := by
  unfold tryGetU32
  simp only [sliceGet_none_k d i 4 h]

theorem tryGetU64_ok (d : List Nat) (i : Nat) (h : i + 8 ≤ d.length) :
    tryGetU64 d i = .ok (leVal ((d.drop i).take 8)) := by
  unfold tryGetU64
  simp only [sliceGet_some_k d i 8 h]
  rw [if_pos (take_drop_length d i 8 h)]

theorem tryGetU64_oob (d : List Nat) (i : Nat) (h : d.length < i + 8) :
    tryGetU64 d i = .error (.outOfBoundsRange i (i + 8)) := by
  unfold tryGetU64
  simp only [sliceGet_none_k d i 8 h]

theorem tryGetNodeData_ok_of_le (d : List Nat) (i : Nat) (h : i + 20 ≤ d.length) :
    ∃ r, tryGetNodeData d i = .ok r := by
  have hlen : (d.drop i).length = d.length - i := by simp
  unfold tryGetNodeData
  rw [if_pos (by omega)]
  simp only [tryGetU32_ok (d.drop i) 0 (by omega), tryGetU32_ok (d.drop i) 4 (by omega),
    tryGetU16_ok (d.drop i) 8 (by omega), tryGetU16_ok (d.drop i) 10 (by omega),
    tryGetU64_ok (d.drop i) 12 (by omega)]
  exact ⟨_, rfl⟩

theorem tryGetNodeData_err_of_lt (d : List Nat) (i : Nat) (h : d.length < i + 20) :
    ∃ e, tryGetNodeData d i = .error e ∧ isOobError e = true := by
  by_cases hb : i ≤ d.length
  · have hlen : (d.drop i).length = d.length - i := by simp
    unfold tryGetNodeData
    rw [if_pos hb]
    by_cases h4 : (d.drop i).length < 0 + 4
    · simp only [tryGetU32_oob (d.drop i) 0 h4]
      exact ⟨_, rfl, rfl⟩
    · simp only [tryGetU32_ok (d.drop i) 0 (by omega)]
      by_cases h8 : (d.drop i).length < 4 + 4
      · simp only [tryGetU32_oob (d.drop i) 4 h8]
        exact ⟨_, rfl, rfl⟩
      · simp only [tryGetU32_ok (d.drop i) 4 (by omega)]
        by_cases h10 : (d.drop i).length < 8 + 2
        · simp only [tryGetU16_oob (d.drop i) 8 h10]
          exact ⟨_, rfl, rfl⟩
        · simp only [tryGetU16_ok (d.drop i) 8 (by omega)]
          by_cases h12 : (d.drop i).length < 10 + 2
          · simp only [tryGetU16_oob (d.drop i) 10 h12]
            exact ⟨_, rfl, rfl⟩
          · simp only [tryGetU16_ok (d.drop i) 10 (by omega)]
            have h20 : (d.drop i).length < 12 + 8 := by omega
            simp only [tryGetU64_oob (d.drop i) 12 h20]
            exact ⟨_, rfl, rfl⟩
  · unfold tryGetNodeData
    rw [if_neg hb]
    exact ⟨_, rfl, rfl⟩

/-- C7 (amended): each raw read is total, returns `Ok` exactly when the
requested bytes lie within the range (string reads additionally requiring
valid UTF-8), decodes little-endian, and on an out-of-range request fails
with an out-of-bounds error — except that a string read whose bytes are in
range but not valid UTF-8 fails with the invalid-string error, not an
out-of-bounds one. -/
theorem raw_reads_total :
    (∀ (d : List Nat) (i : Nat),
      ((tryGetU16 d i).isOk ↔ i + 2 ≤ d.length) ∧
      (i + 2 ≤ d.length → tryGetU16 d i = .ok (leVal ((d.drop i).take 2))) ∧
      (d.length < i + 2 → tryGetU16 d i = .error (.outOfBoundsRange i (i + 2)))) ∧
    (∀ (d : List Nat) (i : Nat),
      ((tryGetU32 d i).isOk ↔ i + 4 ≤ d.length) ∧
      (i + 4 ≤ d.length → tryGetU32 d i = .ok (leVal ((d.drop i).take 4))) ∧
      (d.length < i + 4 → tryGetU32 d i = .error (.outOfBoundsRange i (i + 4)))) ∧
    (∀ (d : List Nat) (i : Nat),
      ((tryGetU64 d i).isOk ↔ i + 8 ≤ d.length) ∧
      (i + 8 ≤ d.length → tryGetU64 d i = .ok (leVal ((d.drop i).take 8))) ∧
      (d.length < i + 8 → tryGetU64 d i = .error (.outOfBoundsRange i (i + 8)))) ∧
    (∀ (d : List Nat) (i len : Nat),
      ((tryGetStr d i len).isOk ↔
        i + len ≤ d.length ∧ utf8Valid ((d.drop i).take len) = true) ∧
      (d.length < i + len → tryGetStr d i len = .error (.outOfBoundsRange i (i + len))) ∧
      (i + len ≤ d.length → utf8Valid ((d.drop i).take len) = true →
        tryGetStr d i len = .ok ((d.drop i).take len)) ∧
      (i + len ≤ d.length → utf8Valid ((d.drop i).take len) = false →
        tryGetStr d i len = .error .invalidString)) ∧
    (∀ (d : List Nat) (i : Nat),
      ((tryGetNodeData d i).isOk ↔ i + 20 ≤ d.length) ∧
      (d.length < i + 20 → ∃ e, tryGetNodeData d i = .error e ∧ isOobError e = true)) := by
  refine ⟨?_, ?_, ?_, ?_, ?_⟩
  · intro d i
    refine ⟨⟨?_, ?_⟩, fun h => tryGetU16_ok d i h, fun h => tryGetU16_oob d i h⟩
    · intro hok
      by_contra hb
      rw [tryGetU16_oob d i (by omega)] at hok
      cases hok
    · intro h
      rw [tryGetU16_ok d i h]
      rfl
  · intro d i
    refine ⟨⟨?_, ?_⟩, fun h => tryGetU32_ok d i h, fun h => tryGetU32_oob d i h⟩
    · intro hok
      by_contra hb
      rw [tryGetU32_oob d i (by omega)] at hok
      cases hok
    · intro h
      rw [tryGetU32_ok d i h]
      rfl
  · intro d i
    refine ⟨⟨?_, ?_⟩, fun h => tryGetU64_ok d i h, fun h => tryGetU64_oob d i h⟩
    · intro hok
      by_contra hb
      rw [tryGetU64_oob d i (by omega)] at hok
      cases hok
    · intro h
      rw [tryGetU64_ok d i h]
      rfl
  · intro d i len
    have hoob : d.length < i + len → tryGetStr d i len = .error (.outOfBoundsRange i (i + len)) := by
      intro h
      unfold tryGetStr
      simp only [sliceGet_none_k d i len h]
    have hokk : i + len ≤ d.length → utf8Valid ((d.drop i).take len) = true →
        tryGetStr d i len = .ok ((d.drop i).take len) := by
      intro h hu
      unfold tryGetStr
      simp only [sliceGet_some_k d i len h]
      rw [if_pos hu]
    have hbad : i + len ≤ d.length → utf8Valid ((d.drop i).take len) = false →
        tryGetStr d i len = .error .invalidString := by
      intro h hu
      unfold tryGetStr
      simp only [sliceGet_some_k d i len h]
      rw [if_neg (by rw [hu]; exact Bool.false_ne_true)]
    refine ⟨⟨?_, ?_⟩, hoob, hokk, hbad⟩
    · intro hok
      by_cases h : i + len ≤ d.length
      · refine ⟨h, ?_⟩
        by_contra hu
        rw [hbad h (by simpa using hu)] at hok
        cases hok
      · rw [hoob (by omega)] at hok
        cases hok
    · intro hc
      rw [hokk hc.1 hc.2]
      rfl
  · intro d i
    constructor
    · constructor
      · intro hok
        by_contra hb
        obtain ⟨e, he, _⟩ := tryGetNodeData_err_of_lt d i (by omega)
        rw [he] at hok
        cases hok
      · intro h
        obtain ⟨r, hr⟩ := tryGetNodeData_ok_of_le d i h
        rw [hr]
        rfl
    · exact tryGetNodeData_err_of_lt d i

/-- Witness for C7's amended statement: an in-range u16 read decodes the
two little-endian bytes. -/
theorem raw_reads_total_witness :
    tryGetU16 [7, 1, 9] 0 = .ok (leVal ((([7, 1, 9] : List Nat).drop 0).take 2)) :=
  (raw_reads_total.1 [7, 1, 9] 0).2.1 (by decide)

/-- Counterexample to C7 as stated: reading one byte at offset 0 of the
range `[255]` is in range, yet fails — with the invalid-string error, which
is not an out-of-bounds error. -/
theorem str_read_error_kind_counterexample :
    (0 + 1 ≤ ([255] : List Nat).length) ∧
    tryGetStr [255] 0 1 = .error .invalidString ∧
    isOobError .invalidString = false := by decide

/-- C8: if the table entry at `string_offset + i*8`, the u16 length prefix
at that entry's offset and the `len` bytes after the prefix are all
readable and those bytes are valid UTF-8, then resolving string index `i`
succeeds with exactly those `len` bytes. -/
theorem get_str_roundtrip (f : NxFile) (i off len : Nat)
    (h1 : tryGetU64 f.data (f.header.string_offset + i * 8) = .ok off)
    (h2 : tryGetU16 f.data off = .ok len)
    (h3 : off + 2 + len ≤ f.data.length)
    (h4 : utf8Valid ((f.data.drop (off + 2)).take len) = true) :
    NxFile.get_str f i = .ok ((f.data.drop (off + 2)).take len) ∧
    ((f.data.drop (off + 2)).take len).length = len := by
  constructor
  · unfold NxFile.get_str
    simp only [h1, h2]
    unfold tryGetStr
    simp only [sliceGet_some_k f.data (off + 2) len (by omega)]
    rw [if_pos h4]
  · exact take_drop_length f.data (off + 2) len (by omega)

/-- Witness for C8 at the example file: string index 2 resolves to the one
byte at offset 168 ("c"). -/
theorem get_str_roundtrip_witness :
    NxFile.get_str fEX 2 = .ok ((fEX.data.drop 168).take 1) ∧
    ((fEX.data.drop 168).take 1).length = 1 :=
  get_str_roundtrip fEX 2 166 1 (by decide) (by decide) (by decide) (by decide)

/-- C4: for any decompressor meeting the spec's interface contract (a
successful decompression returns a buffer of exactly the requested size),
`bitmap()` on a Bitmap-typed node interprets the 8-byte data word
little-endian as index (low 32 bits), width (next 16 bits) and height (top
16 bits), and any bitmap it returns has a pixel buffer of length exactly
`width * height * 4`; on a node of any other type it returns an empty
result — never an error and never a panic. -/
theorem bitmap_shape (dec : List Nat → Nat → Option (List Nat))
    (hdec : ∀ inp sz out, dec inp sz = some out → out.length = sz)
    (f : NxFile) (n : NxNodeData) :
    (∀ b : NxBitmap, nxBitmap dec f n = some (.ok (some b)) →
      b.data.length = b.width * b.height * 4 ∧
      b.width = n.data / 4294967296 % 65536 ∧
      b.height = n.data / 281474976710656 % 65536 ∧
      n.data_type = .bitmap) ∧
    (n.data_type ≠ .bitmap → nxBitmap dec f n = some (.ok none)) := by
  obtain ⟨idx, nm, ch, ct, dt, dw⟩ := n
  cases dt with
  | bitmap =>
    constructor
    · intro b hb
      simp only [nxBitmap] at hb
      cases hgb : NxFile.get_bitmap f (leVal ((u64LeBytes dw).take 4)) with
      | error e =>
        simp only [hgb] at hb
        exact absurd hb (by simp)
      | ok comp =>
        simp only [hgb] at hb
        cases hdc : dec comp
            (leVal (((u64LeBytes dw).drop 4).take 2) *
              leVal (((u64LeBytes dw).drop 6).take 2) * 4) with
        | none =>
          simp only [hdc] at hb
          exact absurd hb (by simp)
        | some out =>
          simp only [hdc, Option.some.injEq, Except.ok.injEq] at hb
          obtain rfl := hb
          refine ⟨hdec comp _ out hdc, ?_, ?_, rfl⟩
          · show leVal (((u64LeBytes dw).drop 4).take 2) = dw / 4294967296 % 65536
            simp only [u64LeBytes, leVal, List.drop, List.take]
            omega
          · show leVal (((u64LeBytes dw).drop 6).take 2) = dw / 281474976710656 % 65536
            simp only [u64LeBytes, leVal, List.drop, List.take]
            omega
    · intro hne
      exact absurd rfl hne
  | empty =>
    refine ⟨fun b hb => absurd hb (by simp [nxBitmap]), fun _ => rfl⟩
  | integer =>
    refine ⟨fun b hb => absurd hb (by simp [nxBitmap]), fun _ => rfl⟩
  | float =>
    refine ⟨fun b hb => absurd hb (by simp [nxBitmap]), fun _ => rfl⟩
  | string =>
    refine ⟨fun b hb => absurd hb (by simp [nxBitmap]), fun _ => rfl⟩
  | vector =>
    refine ⟨fun b hb => absurd hb (by simp [nxBitmap]), fun _ => rfl⟩
  | audio =>
    refine ⟨fun b hb => absurd hb (by simp [nxBitmap]), fun _ => rfl⟩
  | invalid v =>
    refine ⟨fun b hb => absurd hb (by simp [nxBitmap]), fun _ => rfl⟩

/-- Witness for C4: the example Bitmap node (width 1, height 1) yields a
4-byte pixel buffer, and an Integer-typed node yields the empty result. -/
theorem bitmap_shape_witness :
    ([0, 0, 0, 0] : List Nat).length = 1 * 1 * 4 ∧
    nxBitmap decZeros fEX ⟨0, 0, 0, 0, .integer, 0⟩ = some (.ok none) := by
  have hdec0 : ∀ inp sz out, decZeros inp sz = some out → out.length = sz := by
    intro inp sz out h
    injection h with h2
    rw [← h2]
    simp
  exact ⟨((bitmap_shape decZeros hdec0 fBmp nodeBmp).1 ⟨1, 1, [0, 0, 0, 0]⟩ (by decide)).1,
    (bitmap_shape decZeros hdec0 fEX ⟨0, 0, 0, 0, .integer, 0⟩).2 (by decide)⟩

/-- C3 (code bug): on a file whose byte range ends exactly at the single
child record, that record decodes, `iter()` succeeds, yet the iterator
yields no nodes at all: `next` pre-decodes the record after the current
child and returns `None` on failure, dropping the child it should have
yielded (`size_hint` still promises exactly `count` items). -/
theorem iter_drops_last_child :
    tryGetNodeData fIter.data 0 = .ok ⟨0, 0, 0, 0, .empty, 0⟩ ∧
    nxIter fIter nodeIter = .ok ⟨⟨0, 0, 0, 0, .empty, 0⟩, 1⟩ ∧
    iterRun fIter ⟨⟨0, 0, 0, 0, .empty, 0⟩, 1⟩ = [] ∧
    iterRun fIter2 ⟨⟨0, 0, 0, 0, .empty, 0⟩, 1⟩ = [⟨0, 0, 0, 0, .empty, 0⟩] := by decide

/-- C5 (code bug): a failed read of the magic itself (file shorter than 4
bytes) propagates the raw out-of-bounds error instead of `InvalidHeader`,
while a wrong magic and a truncation after the magic both give
`InvalidHeader`. -/
theorem header_magic_error_kind :
    NxHeader.new [] = .error (.outOfBoundsRange 0 4) ∧
    NxHeader.new (u32le 999) = .error .invalidHeader ∧
    NxHeader.new (u32le 0x34474B50) = .error .invalidHeader := by decide

/-- With the record one past the last child also decodable, the iterator
yields exactly the `k` records at consecutive 20-byte offsets from `base`,
in storage order — the behaviour the iterator bug of `next` denies when
only the `k` child records themselves decode. -/
theorem iterRunFuel_yields (f : NxFile) :
    ∀ (k base : Nat) (recs : Nat → NxNodeData),
      (∀ i, i ≤ k → tryGetNodeData f.data (base + i * 20) = .ok (recs i)) →
      iterRunFuel f k ⟨recs 0, k⟩ = (List.range k).map recs := by
  intro k
  induction k with
  | zero =>
    intro base recs _
    simp [iterRunFuel]
  | succ k ih =>
    intro base recs hrec
    have hidx : (recs 0).index = base := by
      have h := tryGetNodeData_index (hrec 0 (by omega))
      simpa using h
    simp only [iterRunFuel, iterNext]
    rw [hidx]
    have h1 : tryGetNodeData f.data (base + 20) = .ok (recs 1) := by
      have h := hrec 1 (by omega)
      simpa using h
    simp only [h1]
    have ih2 := ih (base + 20) (fun i => recs (i + 1))
      (fun i hi => by
        have h := hrec (i + 1) (by omega)
        rwa [show base + (i + 1) * 20 = base + 20 + i * 20 by ring] at h)
    rw [ih2]
    rw [List.range_succ_eq_map]
    simp [List.map_map]
